import Mathlib

/-!
Verification of the natural-language specification of the
`coinmini/bellperson_optimized` Groth16 prover core against a shallow
embedding of its two source files, `src/gpu/multiexp.rs` and
`src/groth16/prover.rs`.

Curve points are embedded as elements of an arbitrary additive commutative
monoid (instantiated at the integers for concrete evaluation): the source
only ever adds points, doubles them, and starts from the identity, so this
captures the group structure the claims are about.  Rust `Vec`/slices are
Lean lists, fallible accesses are `Option`, device and channel effects are
made explicit as event traces or message lists.
-/

namespace BellpersonOpt

/-! ## Generic list helpers (Rust slice semantics) -/

/-- Rust `slice::chunks(k)`: split a list into consecutive chunks of length
`k`, the last one possibly shorter.  For `k = 0` (which panics in Rust,
never reached in this code) we return `[]`. -/
def chunksOfGo {α : Type*} (k : ℕ) : ℕ → List α → List (List α)
  | _, [] => []
  | 0, _ :: _ => []
  | fuel + 1, x :: xs =>
      if k = 0 then [] else (x :: xs).take k :: chunksOfGo k fuel ((x :: xs).drop k)

def chunksOf {α : Type*} (k : ℕ) (xs : List α) : List (List α) :=
  chunksOfGo k xs.length xs

/-- Rust float ceiling division `((a as f64) / (b as f64)).ceil() as usize`,
embedded as ceiling division on the integer operands (every count in this
code is far below `2^53`, so the `f64` computation is exact).  For `b = 0`
(never reached) both the float cast and this formula yield `0`. -/
def f64_ceil_div (a b : ℕ) : ℕ :=
  (a + b - 1) / b

/-- Rust range slicing `xs[lo..hi]` as a partial operation: `none` models
the out-of-bounds panic. -/
def sliceRange {α : Type*} (xs : List α) (lo hi : ℕ) : Option (List α) :=
  if lo ≤ hi ∧ hi ≤ xs.length then some ((xs.drop lo).take (hi - lo)) else none

/-! ## `src/gpu/multiexp.rs`: CPU utilization (lines 25-38)

The environment read is modelled by an `Option (Option ℚ)`:
`none` is an unset `BELLMAN_CPU_UTILIZATION`, `some none` a set but
unparsable value, `some (some v)` a value that parses to `v` (floats are
embedded as rationals).  The source is
`env::var(..).and_then(parse ok v / err 0).unwrap_or(0).max(0).min(1)`. -/
def get_cpu_utilization (envVar : Option (Option ℚ)) : ℚ :=
  let raw : ℚ :=
    match envVar with
    | none => 0                -- unset: `unwrap_or(0f64)`
    | some none => 0           -- set but unparsable: `Err(_) => Ok(0f64)`
    | some (some v) => v       -- parsed: `Ok(val) => Ok(val)`
  min (max raw 0) 1            -- `.max(0f64).min(1f64)`

/-! ## `src/gpu/multiexp.rs`: `MultiexpKernel::multiexp` slicing (409-415) -/

/-- The CPU/GPU split computed at the head of `MultiexpKernel::multiexp`:
`bases = &bases[skip..skip+n]`, `exps = &exps[..n]`,
`cpu_n = ((n as f64) * get_cpu_utilization()) as usize` (truncation = floor
for the nonnegative utilization), `n = n - cpu_n`, both slices `split_at(cpu_n)`,
`chunk_size = ((n as f64) / (num_devices as f64)).ceil() as usize`. -/
structure MultiexpSplit (B S : Type*) where
  cpuBases : List B
  gpuBases : List B
  cpuExps : List S
  gpuExps : List S
  chunkSize : ℕ

def multiexpSplit {B S : Type*} (bases : List B) (exps : List S)
    (skip n : ℕ) (u : ℚ) (numDevices : ℕ) : MultiexpSplit B S :=
  let bases := (bases.drop skip).take n
  let exps := exps.take n
  let cpuN : ℕ := (⌊(n : ℚ) * u⌋).toNat
  let n := n - cpuN
  { cpuBases := bases.take cpuN
    gpuBases := bases.drop cpuN
    cpuExps := exps.take cpuN
    gpuExps := exps.drop cpuN
    chunkSize := f64_ceil_div n numDevices }

/-! ## `src/gpu/multiexp.rs`: GPU branch of `MultiexpKernel::multiexp` (440-473) -/

/-- Window size chosen per device chunk (lines 457-462):
`jack_windows_size = 11`, overwritten with `8` when
`size_of::<Projective>() > 144`. -/
def jack_windows_size (projSize : ℕ) : ℕ :=
  if projSize > 144 then 8 else 11

/-- The fixed sub-tile size `jack_chunk_3080` (line 457). -/
def jack_chunk_3080 : ℕ := 33554466

/-- One device chunk (line 463-466): tile `bases`/`exps` into
`jack_chunk_3080`-sized sub-chunks and sum the per-tile kernel results into
the per-device accumulator.  `kern` abstracts `SingleMultiexpKernel::multiexp`
of the given device (tile bases, tile exps, window size). -/
def deviceChunkRun {B S G : Type*} [AddCommMonoid G]
    (kern : List B → List S → ℕ → G) (projSize : ℕ)
    (bases : List B) (exps : List S) : G :=
  ((chunksOf jack_chunk_3080 bases).zip (chunksOf jack_chunk_3080 exps)).foldl
    (fun acc t => acc + kern t.1 t.2 (jack_windows_size projSize)) 0

/-- The whole GPU branch (lines 445-470): the per-device chunks are zipped
with the kernel list *and with the two-element `gpu_core_ids` vector*
(line 440), so at most `min numDevices 2` chunks are dispatched; the
dispatched per-device results are summed (lines 533-535).  `kern d` is
device `d`.  Returns the list of dispatched (device, chunk) pairs together
with the accumulated sum. -/
def gpuBranchRun {B S G : Type*} [AddCommMonoid G]
    (kern : ℕ → List B → List S → ℕ → G) (projSize numDevices : ℕ)
    (gpuBases : List B) (gpuExps : List S) (chunkSize : ℕ) :
    List (ℕ × List B × List S) × G :=
  let gpuCoreIds : List ℕ := [125, 126]
  let dispatched :=
    ((((chunksOf chunkSize gpuBases).zip
        (chunksOf chunkSize gpuExps)).zip
        (List.range numDevices)).zip gpuCoreIds).map
      (fun x => (x.1.2, x.1.1.1, x.1.1.2))
  (dispatched,
    (dispatched.map (fun x => deviceChunkRun (kern x.1) projSize x.2.1 x.2.2)).sum)

/-! ## `src/gpu/multiexp.rs`: `SingleMultiexpKernel::multiexp` (131-246) -/

/-- Repeated point doubling: `for _ in 0..w { acc.double(); }`. -/
def doubleTimes {G : Type*} [Add G] : G → ℕ → G
  | acc, 0 => acc
  | acc, w + 1 => doubleTimes (acc + acc) w

/-- The host reduction loop (lines 232-243), recursing on the number of
windows still to process (`rem` counts down from `num_windows`, `i` is the
current window index, `bits` the bits consumed so far, `acc` the running
accumulator).  Out-of-range reads of the device result vector default to
the identity (the source vector always has `num_groups * num_windows`
entries). -/
def hostReduceLoop {G : Type*} [AddCommMonoid G] (results : List G)
    (numWindows numGroups windowSize expBits : ℕ) :
    ℕ → ℕ → ℕ → G → G
  | 0, _, _, acc => acc
  | rem + 1, i, bits, acc =>
      let w := min windowSize (expBits - bits)
      let acc := doubleTimes acc w
      let acc := (List.range numGroups).foldl
        (fun a g => a + results.getD (g * numWindows + i) 0) acc
      hostReduceLoop results numWindows numGroups windowSize expBits
        rem (i + 1) (bits + w) acc

/-- The whole host reduction of `SingleMultiexpKernel::multiexp`
(lines 232-245): start from the identity at window 0 with no bits consumed. -/
def hostReduce {G : Type*} [AddCommMonoid G] (results : List G)
    (numWindows numGroups windowSize expBits : ℕ) : G :=
  hostReduceLoop results numWindows numGroups windowSize expBits numWindows 0 0 0

/-- The per-window sum over all groups, `results[g * num_windows + i]`
summed over `g < num_groups`. -/
def windowGroupSum {G : Type*} [AddCommMonoid G] (results : List G)
    (numWindows numGroups i : ℕ) : G :=
  ((List.range numGroups).map (fun g => results.getD (g * numWindows + i) 0)).sum

/-- Plain multi-scalar multiplication, the sum of `e_i` times `B_i`. -/
def msmNat {G : Type*} [AddCommMonoid G] (bases : List G) (exps : List ℕ) : G :=
  ((bases.zip exps).map (fun p => p.2 • p.1)).sum

/-- The `w`-bit window digit of exponent `e` at (MSB-first) window index `i`:
window `i` covers bits `[eb - bits_i - w_i, eb - bits_i)` where
`bits_i = min (i * ws) eb` are the bits consumed before it and
`w_i = min ws (eb - bits_i)` its width. -/
def windowDigit (ws eb e i : ℕ) : ℕ :=
  let bits := min (i * ws) eb
  let w := min ws (eb - bits)
  let below := eb - bits - w
  e / 2 ^ below % 2 ^ w

/-! ### Device interaction trace of `SingleMultiexpKernel::multiexp` -/

/-- Errors of the underlying compute runtime (buffer and kernel operations
return `GPUResult` by wrapping these). -/
structure DevErr where
  code : ℕ
deriving DecidableEq

/-- Modelled from the spec: the GPU error type lives in `src/gpu/error.rs`,
which is not under `src/`.  Per the error taxonomy of the spec (section 7),
preemption (`GPUTaken`) is a variant distinct from device-execution errors
and from the unsupported-curve `Simple` error. -/
inductive GPUError : Type
  | gpuTaken
  | opencl (e : DevErr)
  | simple
deriving DecidableEq

/-- Observable device-side effects of one `SingleMultiexpKernel::multiexp`
call, in program order. -/
inductive KernelEvent : Type
  | checkBreak
  | allocBuffer (len : ℕ)
  | writeBuffer
  | launchKernel
  | readResults
deriving DecidableEq

/-- Outcomes of the seven fallible device operations of one call, in
program order: create/write base buffer, create/write exponent buffer,
create bucket buffer, create result buffer, kernel launch (`none` means
success), plus the values read back from the result buffer. -/
structure DeviceOracle (G : Type*) where
  createBase : Option DevErr
  writeBase : Option DevErr
  createExp : Option DevErr
  writeExp : Option DevErr
  createBucket : Option DevErr
  createResult : Option DevErr
  launch : Option DevErr
  readOut : List G

/-- Shallow embedding of `SingleMultiexpKernel::multiexp` (lines 131-246):
the priority check at entry, the four buffer allocations and two writes,
the curve-id dispatch, the kernel launch, the result read and the host
reduction.  Returns the event trace together with the result. -/
def singleMultiexpRun {G : Type*} [AddCommMonoid G]
    (priorityBreak : Bool) (dev : DeviceOracle G) (curveOk : Bool)
    (n coreCount windowSize expBits : ℕ) :
    List KernelEvent × Except GPUError G :=
  -- `if locks::PriorityLock::should_break(self.priority) { return Err(GPUTaken) }`
  if priorityBreak then ([.checkBreak], .error .gpuTaken) else
  let numWindows := f64_ceil_div expBits windowSize
  let numGroups := 2 * coreCount / numWindows
  let bucketLen := 2 ^ windowSize
  match dev.createBase with
  | some e => ([.checkBreak, .allocBuffer n], .error (.opencl e))
  | none =>
  match dev.writeBase with
  | some e => ([.checkBreak, .allocBuffer n, .writeBuffer], .error (.opencl e))
  | none =>
  match dev.createExp with
  | some e => ([.checkBreak, .allocBuffer n, .writeBuffer, .allocBuffer n],
      .error (.opencl e))
  | none =>
  match dev.writeExp with
  | some e => ([.checkBreak, .allocBuffer n, .writeBuffer, .allocBuffer n,
      .writeBuffer], .error (.opencl e))
  | none =>
  match dev.createBucket with
  | some e => ([.checkBreak, .allocBuffer n, .writeBuffer, .allocBuffer n,
      .writeBuffer, .allocBuffer (2 * coreCount * bucketLen)], .error (.opencl e))
  | none =>
  match dev.createResult with
  | some e => ([.checkBreak, .allocBuffer n, .writeBuffer, .allocBuffer n,
      .writeBuffer, .allocBuffer (2 * coreCount * bucketLen),
      .allocBuffer (2 * coreCount)], .error (.opencl e))
  | none =>
  -- `create_kernel`: unsupported curve fails with `GPUError::Simple` here
  if curveOk = false then
    ([.checkBreak, .allocBuffer n, .writeBuffer, .allocBuffer n, .writeBuffer,
      .allocBuffer (2 * coreCount * bucketLen), .allocBuffer (2 * coreCount)],
      .error .simple)
  else
  match dev.launch with
  | some e => ([.checkBreak, .allocBuffer n, .writeBuffer, .allocBuffer n,
      .writeBuffer, .allocBuffer (2 * coreCount * bucketLen),
      .allocBuffer (2 * coreCount), .launchKernel], .error (.opencl e))
  | none =>
    ([.checkBreak, .allocBuffer n, .writeBuffer, .allocBuffer n, .writeBuffer,
      .allocBuffer (2 * coreCount * bucketLen), .allocBuffer (2 * coreCount),
      .launchKernel, .readResults],
      .ok (hostReduce dev.readOut numWindows numGroups windowSize expBits))

/-! ## `src/gpu/multiexp.rs`: `only_cpu_multiexp` (249-337) -/

/-- The hard-coded CPU core id list, `for i in 1..64 { cpu_core_ids.push(i) }`
(lines 272-277): the 63 ids `1` to `63`. -/
def cpu_core_ids : List ℕ := (List.range 63).map (fun i => i + 1)

/-- Modelled from the spec: `multiexp_with_cpu` (in `crate::multiexp`, not
under `src/`) runs the CPU Pippenger MSM on one chunk, yielding the sum of
`e_i` times `B_i` over the chunk. -/
def multiexp_with_cpu {G : Type*} [AddCommMonoid G]
    (bases : List G) (exps : List ℕ) : G :=
  msmNat bases exps

/-- Shallow embedding of `only_cpu_multiexp` (lines 249-337).  The `n`
argument is immediately shadowed by `let n = cpu_exps.len()` (line 266);
the bases slice is `&cpu_bases[skip..(skip + n)]` (line 267); the chunk
size is `((cpu_bases.len() as f64) / (used_core as f64)).ceil()` with
`used_core = 4` (lines 287-288); the three parallel chunk streams (bases,
exps, and the 63-element `cpu_core_ids`) are zipped, which truncates to the
shortest stream, and the per-chunk results are summed (lines 290-334). -/
def only_cpu_multiexp {G : Type*} [AddCommMonoid G]
    (bases : List G) (exps : List ℕ) (skip n : ℕ) : G :=
  let n := exps.length
  let cpuBases := (bases.drop skip).take n
  if cpuBases.length = 0 then 0 else
  let usedCore : ℕ := 4
  let perCoreChunkSize := f64_ceil_div cpuBases.length usedCore
  (((((chunksOf perCoreChunkSize cpuBases).zip
      (chunksOf perCoreChunkSize exps)).zip
      (chunksOf perCoreChunkSize cpu_core_ids)).map
    (fun x => multiexp_with_cpu x.1.1 x.1.2)).sum)

/-- The behaviour claim C10 ascribes to `only_cpu_multiexp`: the sum of the
per-chunk CPU multiexp results over all chunks of size
`ceil(exps.len() / 4)` of the selected slice, with no truncation. -/
def only_cpu_multiexp_claimed {G : Type*} [AddCommMonoid G]
    (bases : List G) (exps : List ℕ) (skip : ℕ) : G :=
  let n := exps.length
  let cpuBases := (bases.drop skip).take n
  let perCoreChunkSize := f64_ceil_div cpuBases.length 4
  ((((chunksOf perCoreChunkSize cpuBases).zip
      (chunksOf perCoreChunkSize exps))).map
    (fun x => multiexp_with_cpu x.1 x.2)).sum

/-! ## `src/groth16/prover.rs`: `ProvingAssignment` and `DensityTracker` -/

/-- Modelled from the spec: `DensityTracker` lives in `crate::multiexp`,
which is not under `src/`.  Section 3 of the spec describes it as a bit-set
over variable indices with `add_element`, `inc(i)` and
`extend(other, is_input_density)`; mirroring the input-assignment
concatenation of `ProvingAssignment::extend` (prover.rs lines 246-248),
`extend` with `is_input_density = true` skips the first bit of `other`
(the bit of the temporarily allocated constant-one input) and appends all
bits otherwise. -/
structure DensityTracker where
  bv : List Bool
deriving DecidableEq

def DensityTracker.new : DensityTracker := ⟨[]⟩

def DensityTracker.add_element (d : DensityTracker) : DensityTracker :=
  ⟨d.bv ++ [false]⟩

def DensityTracker.extend (d other : DensityTracker) (isInputDensity : Bool) :
    DensityTracker :=
  if isInputDensity then ⟨d.bv ++ other.bv.drop 1⟩ else ⟨d.bv ++ other.bv⟩

/-- Structure `ProvingAssignment` (prover.rs lines 68-82), with the scalar field
abstracted by `F`.  Lean structure equality coincides with the derived
`PartialEq` of the source (lines 121-132), which compares all eight
fields. -/
structure ProvingAssignment (F : Type*) where
  a_aux_density : DensityTracker
  b_input_density : DensityTracker
  b_aux_density : DensityTracker
  a : List F
  b : List F
  c : List F
  input_assignment : List F
  aux_assignment : List F
deriving DecidableEq

def ProvingAssignment.new {F : Type*} : ProvingAssignment F :=
  ⟨.new, .new, .new, [], [], [], [], []⟩

/-- Method `ConstraintSystem::alloc` for `ProvingAssignment` (lines 150-161):
push onto `aux_assignment`, add one element to each aux density. -/
def ProvingAssignment.alloc {F : Type*} (p : ProvingAssignment F) (v : F) :
    ProvingAssignment F :=
  { p with
    aux_assignment := p.aux_assignment ++ [v]
    a_aux_density := p.a_aux_density.add_element
    b_aux_density := p.b_aux_density.add_element }

/-- Method `ConstraintSystem::alloc_input` (lines 163-173). -/
def ProvingAssignment.alloc_input {F : Type*} (p : ProvingAssignment F) (v : F) :
    ProvingAssignment F :=
  { p with
    input_assignment := p.input_assignment ++ [v]
    b_input_density := p.b_input_density.add_element }

/-- Method `ProvingAssignment::extend` (lines 237-250): extend the three densities,
append `a`, `b`, `c` and `aux_assignment`, and append `input_assignment`
skipping the first element of the extendee. -/
def ProvingAssignment.extend {F : Type*} (p other : ProvingAssignment F) :
    ProvingAssignment F :=
  { a_aux_density := p.a_aux_density.extend other.a_aux_density false
    b_input_density := p.b_input_density.extend other.b_input_density true
    b_aux_density := p.b_aux_density.extend other.b_aux_density false
    a := p.a ++ other.a
    b := p.b ++ other.b
    c := p.c ++ other.c
    input_assignment := p.input_assignment ++ other.input_assignment.drop 1
    aux_assignment := p.aux_assignment ++ other.aux_assignment }

/-- One allocation call of the synthesis stream: `alloc` of an aux value or
`alloc_input` of an input value. -/
inductive AllocOp (F : Type*) : Type _
  | aux (v : F)
  | inp (v : F)
deriving DecidableEq

def applyOp {F : Type*} (p : ProvingAssignment F) : AllocOp F → ProvingAssignment F
  | .aux v => p.alloc v
  | .inp v => p.alloc_input v

def applyOps {F : Type*} (p : ProvingAssignment F) (ops : List (AllocOp F)) :
    ProvingAssignment F :=
  ops.foldl applyOp p

/-- A fresh assignment after the initial `alloc_input(one)` every prover
performs (prover.rs line 314, and the extend test lines 952-962). -/
def startAssignment {F : Type*} (one : F) : ProvingAssignment F :=
  (ProvingAssignment.new).alloc_input one

/-! ## `src/groth16/prover.rs`: L-phase CPU branch (lines 660-676) -/

/-- Observable actions of the L-phase CPU worker: computing the MSM of
round `r`, and sending a value on `l_s_tx_cpu`. -/
inductive LCpuEvent (G : Type*) : Type _
  | compute (round : ℕ) (v : G)
  | send (v : G)
deriving DecidableEq

/-- The L-phase CPU closure (lines 660-676): `cpu_l_s.get(0).unwrap()` and
the first `multiexp_fulldensity_only_cpu` bind `result`; the second call on
`cpu_l_s.get(1).unwrap()` binds a shadowing `result`; one `send` of the
(shadowing) `result` follows.  `msm` abstracts the CPU MSM applied to the
fixed worker and `l_params`. -/
def lPhaseCpuBranch {α G : Type u} (msm : α → G) (cpu_l_s : List α) :
    Option (List (LCpuEvent G)) := do
  let first ← cpu_l_s.get? 0
  let result := msm first
  let ev1 := LCpuEvent.compute 1 result
  let second ← cpu_l_s.get? 1
  let result := msm second
  let ev2 := LCpuEvent.compute 2 result
  some [ev1, ev2, .send result]

/-- The values sent on the channel, in order. -/
def sentValues {G : Type*} (evs : List (LCpuEvent G)) : List G :=
  evs.filterMap (fun e => match e with | .send v => some v | _ => none)

/-- The values computed by the MSM calls, in order. -/
def computedValues {G : Type*} (evs : List (LCpuEvent G)) : List G :=
  evs.filterMap (fun e => match e with | .compute _ v => some v | _ => none)

/-! ## `src/groth16/prover.rs`: channel collection and proof assembly -/

/-- The collection idiom `for result in rx.recv() { v.push(result) }`
(lines 596-603 and 713-720): `recv()` returns a `Result` holding the single
first queued message, and iterating a `Result` yields its `Ok` value at
most once — so at most one element of `sent` is collected. -/
def recvIterOnce {α : Type*} (sent : List α) : List α :=
  sent.take 1

/-- The `h_s` vector as assembled from the two channel halves
(lines 596-603): the CPU worker queues the H results of provers 0 and 1 in
order (lines 538-554), the GPU worker queues the H results of provers 2
onward in order (lines 570-589); one `recv` iteration per half.  `H` lists
the H-MSM value of every prover in batch order.  (Batches of fewer than two
provers panic earlier; see the fixed-index access model.) -/
def h_s_collected {G : Type*} (H : List G) : List G :=
  recvIterOnce (H.take 2) ++ recvIterOnce (H.drop 2)

/-- The `l_s` vector as assembled from the two channel halves
(lines 713-720): the CPU worker computes the L results of provers 0 and 1
but sends only the second (the shadowed `result`, lines 660-676), the GPU
worker queues the L results of provers 2 onward; one `recv` iteration per
half.  `L` lists the L-MSM value of every prover in batch order. -/
def l_s_collected {G : Type*} (L : List G) : List G :=
  recvIterOnce ((L.take 2).drop 1) ++ recvIterOnce (L.drop 2)

/-- The final zip of the assembly stage (lines 870-924):
`h_s.zip(l_s).zip(inputs).zip(r_s).zip(s_s)`, flattened to one tuple
`(h, l, inputs, r, s)` per emitted proof. -/
def assembledProofs {G I R S : Type*} (H L : List G) (inputs : List I)
    (r_s : List R) (s_s : List S) : List (G × G × I × R × S) :=
  (((((h_s_collected H).zip (l_s_collected L)).zip inputs).zip r_s).zip s_s).map
    (fun x => (x.1.1.1.1, x.1.1.1.2, x.1.1.2, x.1.2, x.2))

/-! ## `src/groth16/prover.rs`: pipeline stage order and the delta check -/

inductive PipeEvent : Type
  | fft        -- an FFT through the locked FFT kernels (lines 456-469, 480)
  | msmGpu     -- a multiexp through the locked GPU multiexp kernel
  | msmCpu     -- a `multiexp_fulldensity_only_cpu` call
  | deltaCheck -- the `vk.delta_g1.is_zero() || vk.delta_g2.is_zero()` test (line 881)
deriving DecidableEq

inductive ProverError : Type
  | unexpectedIdentity
deriving DecidableEq

/-- The assembly loop over the zipped tuples (lines 870-924): each
iteration performs the delta check first and aborts the whole collect with
`SynthesisError::UnexpectedIdentity` when either delta is the identity. -/
def assemblyLoop (deltaZero : Bool) : ℕ → List PipeEvent × Except ProverError (List Unit)
  | 0 => ([], .ok [])
  | k + 1 =>
      if deltaZero then ([.deltaCheck], .error .unexpectedIdentity)
      else
        let rest := assemblyLoop deltaZero k
        (.deltaCheck :: rest.1, rest.2.map (fun l => () :: l))

/-- Stage order of `create_proof_batch_priority_inner` for a batch of
`numProvers` circuits, with the per-prover MSM and proof values abstracted
away (only event order and the error outcome are modelled).  Per prover the
polynomial phase runs seven FFTs through the locked (GPU) FFT kernels
(lines 456-480); the H and L phases run two CPU MSMs and `numProvers - 2`
GPU MSMs each (lines 515-722); the input phase runs six GPU MSMs per prover
(lines 750-859); assembly iterates over the zipped collected vectors and
checks the deltas (lines 870-924). -/
def assembledCount (numProvers : ℕ) : ℕ :=
  (assembledProofs (List.replicate numProvers ()) (List.replicate numProvers ())
    (List.replicate numProvers ()) (List.replicate numProvers ())
    (List.replicate numProvers ())).length

def pipelineRun (numProvers : ℕ) (deltaG1Zero deltaG2Zero : Bool) :
    List PipeEvent × Except ProverError (List Unit) :=
  (List.replicate (7 * numProvers) PipeEvent.fft
      ++ (List.replicate 2 PipeEvent.msmCpu
        ++ List.replicate (numProvers - 2) PipeEvent.msmGpu)
      ++ (List.replicate 2 PipeEvent.msmCpu
        ++ List.replicate (numProvers - 2) PipeEvent.msmGpu)
      ++ List.replicate (6 * numProvers) PipeEvent.msmGpu
      ++ (assemblyLoop (deltaG1Zero || deltaG2Zero) (assembledCount numProvers)).1,
    (assemblyLoop (deltaG1Zero || deltaG2Zero) (assembledCount numProvers)).2)

/-- No FFT and no GPU multiexp occurs before the first delta check of a
trace. -/
def noGpuBeforeDeltaCheck (tr : List PipeEvent) : Bool :=
  ((tr.takeWhile (fun e => !(e == PipeEvent.deltaCheck))).filter
    (fun e => e == PipeEvent.fft || e == PipeEvent.msmGpu)).isEmpty

/-! ## `src/groth16/prover.rs`: fixed-index accesses (C9) -/

/-- The accesses of `create_proof_batch_priority_inner` that are hard-coded
against the first two batch entries: `provers[0]` (lines 327-329), the H
phase slice `&a_s[0..percent]` with `percent = 2` and its
`get(0).unwrap()` / `get(1).unwrap()` (lines 519-554), and the L phase
slice `&assignments[0..percent]` with its two unwraps (lines 643-673).
`none` models a panic (out-of-bounds slice or unwrap of `None`). -/
def innerFixedIndexAccesses {π α β : Type u} (provers : List π) (a_s : List α)
    (assignments : List β) : Option (π × (α × α) × (β × β)) := do
  let p0 ← provers.get? 0
  let cpu_a_s ← sliceRange a_s 0 2
  let h0 ← cpu_a_s.get? 0
  let h1 ← cpu_a_s.get? 1
  let cpu_l_s ← sliceRange assignments 0 2
  let l0 ← cpu_l_s.get? 0
  let l1 ← cpu_l_s.get? 1
  some (p0, (h0, h1), (l0, l1))

/-- The corrected description of `only_cpu_multiexp`: the zip with the
63-element `cpu_core_ids` stream truncates the chunk list, so only the
first `(chunksOf c cpu_core_ids).length` chunks (of size
`c = ceil(len / 4)`) are actually summed. -/
def only_cpu_multiexp_trunc {G : Type*} [AddCommMonoid G]
    (bases : List G) (exps : List ℕ) (skip : ℕ) : G :=
  let cpuBases := (bases.drop skip).take exps.length
  let c := f64_ceil_div cpuBases.length 4
  ((((chunksOf c cpuBases).zip (chunksOf c exps)).take
      (chunksOf c cpu_core_ids).length).map
    (fun x => multiexp_with_cpu x.1 x.2)).sum

/-- The input values allocated by a stream of allocation calls, in order. -/
def inputsOf {F : Type*} (ops : List (AllocOp F)) : List F :=
  ops.filterMap (fun o => match o with | .inp v => some v | .aux _ => none)

/-- The aux values allocated by a stream of allocation calls, in order. -/
def auxOf {F : Type*} (ops : List (AllocOp F)) : List F :=
  ops.filterMap (fun o => match o with | .aux v => some v | .inp _ => none)

/-- The total number of doublings the reduction loop performs in its
remaining `rem` iterations when `bits` bits have been consumed. -/
def tailBits (ws eb : ℕ) : ℕ → ℕ → ℕ
  | 0, _ => 0
  | rem + 1, bits =>
      let w := min ws (eb - bits)
      w + tailBits ws eb rem (bits + w)

/-- Specification form of the remaining reduction loop: each window
contributes its group sum scaled by two to the number of doublings still to
come. -/
def partialSpec {G : Type*} [AddCommMonoid G] (results : List G)
    (numWindows numGroups windowSize expBits : ℕ) : ℕ → ℕ → ℕ → G
  | 0, _, _ => 0
  | rem + 1, i, bits =>
      let w := min windowSize (expBits - bits)
      2 ^ (tailBits windowSize expBits rem (bits + w)) •
          windowGroupSum results numWindows numGroups i
        + partialSpec results numWindows numGroups windowSize expBits
            rem (i + 1) (bits + w)

/-- The weighted digit sum of the remaining windows of an exponent `e`. -/
def digitSum (ws eb e : ℕ) : ℕ → ℕ → ℕ
  | 0, _ => 0
  | rem + 1, bits =>
      let w := min ws (eb - bits)
      2 ^ (eb - bits - w) * (e / 2 ^ (eb - bits - w) % 2 ^ w)
        + digitSum ws eb e rem (bits + w)

/-! ## Helper lemmas -/

theorem chunksOfGo_fuel {α : Type*} (k : ℕ) :
    ∀ f1 f2 (xs : List α), xs.length ≤ f1 → xs.length ≤ f2 →
      chunksOfGo k f1 xs = chunksOfGo k f2 xs := by
  intro f1
  induction f1 with
  | zero =>
    intro f2 xs h1 _
    have hx : xs = [] := by
      cases xs with
      | nil => rfl
      | cons a t => simp at h1
    subst hx
    cases f2 <;> rfl
  | succ f ih =>
    intro f2 xs h1 h2
    cases xs with
    | nil => cases f2 <;> rfl
    | cons x t =>
      cases f2 with
      | zero => simp at h2
      | succ f2' =>
        simp only [List.length_cons] at h1 h2
        simp only [chunksOfGo]
        by_cases hk : k = 0
        · simp [hk]
        · simp only [hk, if_false]
          have hlen : ((x :: t).drop k).length ≤ f := by
            simp only [List.length_drop, List.length_cons]
            omega
          have hlen' : ((x :: t).drop k).length ≤ f2' := by
            simp only [List.length_drop, List.length_cons]
            omega
          rw [ih _ _ hlen hlen']

theorem chunksOf_nil {α : Type*} (k : ℕ) : chunksOf k ([] : List α) = [] := rfl

theorem chunksOf_cons {α : Type*} {k : ℕ} (hk : k ≠ 0) (x : α) (t : List α) :
    chunksOf k (x :: t) = (x :: t).take k :: chunksOf k ((x :: t).drop k) := by
  unfold chunksOf
  simp only [List.length_cons, chunksOfGo, hk, if_false]
  have h1 : ((x :: t).drop k).length ≤ t.length := by
    simp only [List.length_drop, List.length_cons]
    omega
  rw [chunksOfGo_fuel k _ _ _ h1 le_rfl]

theorem chunksOf_eq_nil_iff {α : Type*} {k : ℕ} (hk : k ≠ 0) (xs : List α) :
    chunksOf k xs = [] ↔ xs = [] := by
  cases xs with
  | nil => simp [chunksOf_nil]
  | cons x t => simp [chunksOf_cons hk]

theorem chunksOf_flatten {α : Type*} {k : ℕ} (hk : k ≠ 0) (xs : List α) :
    (chunksOf k xs).flatten = xs := by
  generalize hn : xs.length = n
  induction n using Nat.strong_induction_on generalizing xs with
  | _ n ih =>
    cases xs with
    | nil => simp [chunksOf_nil]
    | cons x t =>
      rw [chunksOf_cons hk]
      simp only [List.flatten_cons]
      have hlt : ((x :: t).drop k).length < n := by
        subst hn
        simp only [List.length_drop, List.length_cons]
        omega
      rw [ih _ hlt _ rfl, List.take_append_drop]

theorem chunksOf_mem_length {α : Type*} {k : ℕ} (hk : k ≠ 0) (xs : List α) :
    ∀ c ∈ chunksOf k xs, c.length ≤ k ∧ c ≠ [] := by
  generalize hn : xs.length = n
  induction n using Nat.strong_induction_on generalizing xs with
  | _ n ih =>
    cases xs with
    | nil => simp [chunksOf_nil]
    | cons x t =>
      rw [chunksOf_cons hk]
      intro c hc
      rcases List.mem_cons.mp hc with hc | hc
      · subst hc
        constructor
        · simpa using Nat.min_le_left _ _
        · cases k with
          | zero => exact absurd rfl hk
          | succ m => simp
      · have hlt : ((x :: t).drop k).length < n := by
          subst hn
          simp only [List.length_drop, List.length_cons]
          omega
        exact ih _ hlt _ rfl c hc

theorem chunksOf_dropLast_length {α : Type*} {k : ℕ} (hk : k ≠ 0) (xs : List α) :
    ∀ c ∈ (chunksOf k xs).dropLast, c.length = k := by
  generalize hn : xs.length = n
  induction n using Nat.strong_induction_on generalizing xs with
  | _ n ih =>
    cases xs with
    | nil => simp [chunksOf_nil]
    | cons x t =>
      rw [chunksOf_cons hk]
      intro c hc
      rcases hrest : chunksOf k ((x :: t).drop k) with _ | ⟨r, rs⟩
      · rw [hrest] at hc
        simp at hc
      · rw [hrest, List.dropLast_cons_of_ne_nil (by simp)] at hc
        rcases List.mem_cons.mp hc with hc | hc
        · subst hc
          have hne : (x :: t).drop k ≠ [] := by
            intro hnil
            rw [hnil, chunksOf_nil] at hrest
            exact List.noConfusion hrest
          have hklen : k < (x :: t).length := by
            by_contra hcon
            exact hne (List.drop_eq_nil_of_le (le_of_not_lt hcon))
          simp only [List.length_cons] at hklen
          simp only [List.length_take, List.length_cons]
          omega
        · have hlt : ((x :: t).drop k).length < n := by
            subst hn
            simp only [List.length_drop, List.length_cons]
            omega
          have := ih _ hlt _ rfl c
          rw [hrest] at this
          exact this hc

theorem foldl_add_eq_sum {α G : Type*} [AddCommMonoid G] (f : α → G) :
    ∀ (l : List α) (a : G), l.foldl (fun acc t => acc + f t) a = a + (l.map f).sum := by
  intro l
  induction l with
  | nil => intro a; simp
  | cons x t ih =>
    intro a
    simp only [List.foldl_cons, List.map_cons, List.sum_cons, ih, add_assoc]

theorem zip_map_fst_take {α β γ : Type*} (f : α → γ) :
    ∀ (l1 : List α) (l2 : List β),
      (l1.zip l2).map (fun p => f p.1) = (l1.take l2.length).map f := by
  intro l1
  induction l1 with
  | nil => intro l2; simp
  | cons x t ih =>
    intro l2
    cases l2 with
    | nil => simp
    | cons y u => simp [ih u]

/-! ## Claim C2 -/

/-- C2: in the L-phase CPU branch of `create_proof_batch_priority_inner`,
both CPU multiexp calls are executed (the computed values are, in order,
the MSMs of the first and the second prover), but exactly one value is sent
on the CPU-side channel: the result of the second prover L MSM.  The first
prover result is bound to a name the second binding shadows and is never
sent. -/
theorem c2_lphase_cpu_sends_only_second {α G : Type u} (msm : α → G)
    (l0 l1 : α) (rest : List α) :
    (lPhaseCpuBranch msm (l0 :: l1 :: rest)).map computedValues
        = some [msm l0, msm l1]
      ∧ (lPhaseCpuBranch msm (l0 :: l1 :: rest)).map sentValues
        = some [msm l1] := by
  constructor <;> rfl

/-- Witness for C2 at a concrete batch. -/
theorem c2_witness :
    (lPhaseCpuBranch (fun x : ℕ => x * x) [3, 4, 5]).map computedValues
        = some [9, 16]
      ∧ (lPhaseCpuBranch (fun x : ℕ => x * x) [3, 4, 5]).map sentValues
        = some [16] :=
  c2_lphase_cpu_sends_only_second (fun x : ℕ => x * x) 3 4 [5]

/-! ## Claim C9 -/

/-- C9: the fixed-index accesses of `create_proof_batch_priority_inner`
(`provers[0]`, the two `&..[0..2]` slices with `percent = 2`, and the four
`get(..).unwrap()` calls of the CPU halves) all succeed exactly when the
batch has at least two circuits; a smaller batch panics at one of them
(`none`) instead of returning a `SynthesisError`. -/
theorem c9_fixed_index_accesses {π α β : Type u} (provers : List π) (a_s : List α)
    (assignments : List β) (ha : a_s.length = provers.length)
    (hassign : assignments.length = provers.length) :
    (innerFixedIndexAccesses provers a_s assignments).isSome
      ↔ 2 ≤ provers.length := by
  rcases provers with _ | ⟨p0, ps⟩
  · simp [innerFixedIndexAccesses]
  rcases ps with _ | ⟨p1, ps'⟩
  · rcases a_s with _ | ⟨a0, as⟩
    · simp at ha
    rcases as with _ | ⟨a1, as'⟩
    · simp [innerFixedIndexAccesses, sliceRange]
    · simp at ha
  · rcases a_s with _ | ⟨a0, as⟩
    · simp at ha
    rcases as with _ | ⟨a1, as'⟩
    · simp at ha
    rcases assignments with _ | ⟨b0, bs⟩
    · simp at hassign
    rcases bs with _ | ⟨b1, bs'⟩
    · simp at hassign
    simp [innerFixedIndexAccesses, sliceRange]

/-- Witness for C9 at a concrete three-circuit batch. -/
theorem c9_witness :
    (innerFixedIndexAccesses ([0, 1, 2] : List ℕ) ([3, 4, 5] : List ℕ)
        ([6, 7, 8] : List ℕ)).isSome
      ↔ 2 ≤ ([0, 1, 2] : List ℕ).length :=
  c9_fixed_index_accesses [0, 1, 2] [3, 4, 5] [6, 7, 8] rfl rfl

/-! ## Claim C1 -/

/-- C1 fails on the code: for a batch of three circuits with H results
`[10, 11, 12]`, L results `[20, 21, 22]`, input-MSM tuples `[30, 31, 32]`
and randomness `r = [40, 41, 42]`, `s = [50, 51, 52]`, the assembly stage
emits only two proofs, and they mix provers: the first proof combines the
H result of prover 0 with the L result of prover 1 and the inputs of
prover 0, the second combines the H and L results of prover 2 with the
inputs of prover 1 — because each channel `recv()` is iterated once, so
only the first message of each half is ever collected, and the L-phase CPU
worker only sends the second prover L result. -/
theorem c1_proofs_misassembled :
    assembledProofs ([10, 11, 12] : List ℕ) ([20, 21, 22] : List ℕ)
        ([30, 31, 32] : List ℕ) ([40, 41, 42] : List ℕ) ([50, 51, 52] : List ℕ)
        = [(10, 21, 30, 40, 50), (12, 22, 31, 41, 51)]
      ∧ (assembledProofs ([10, 11, 12] : List ℕ) ([20, 21, 22] : List ℕ)
          ([30, 31, 32] : List ℕ) ([40, 41, 42] : List ℕ)
          ([50, 51, 52] : List ℕ)).length ≠ 3 := by
  decide

/-! ## Claim C10 -/

/-- C10 as stated is false: with 81 bases and 81 exponents (all ones), the
chunk size is `ceil(81/4) = 21`, the bases fall into 4 chunks but the
63 core ids only into 3, so the zip drops the last chunk: the function
returns 63 whereas the claimed sum over all chunks is 81. -/
theorem c10_counterexample :
    only_cpu_multiexp (List.replicate 81 (1 : ℤ)) (List.replicate 81 1) 0 81 = 63
      ∧ only_cpu_multiexp_claimed (List.replicate 81 (1 : ℤ))
          (List.replicate 81 1) 0 = 81
      ∧ only_cpu_multiexp (List.replicate 81 (1 : ℤ)) (List.replicate 81 1) 0 81
          ≠ only_cpu_multiexp_claimed (List.replicate 81 (1 : ℤ))
              (List.replicate 81 1) 0 := by
  decide

/-- C10 amended: `only_cpu_multiexp` ignores its `n` argument (the element
count is always `exps.len()`, the bases used are
`bases[skip .. skip + exps.len()]`), and the returned point is the sum of
the per-chunk CPU multiexp results over the chunks of size
`ceil(exps.len() / 4)` *truncated to the number of chunks of the 63-element
core id list* — chunks beyond that are silently dropped. -/
theorem c10_amended {G : Type*} [AddCommMonoid G] (bases : List G)
    (exps : List ℕ) (skip n n' : ℕ) :
    only_cpu_multiexp bases exps skip n = only_cpu_multiexp bases exps skip n'
      ∧ only_cpu_multiexp bases exps skip n
          = only_cpu_multiexp_trunc bases exps skip := by
  refine ⟨rfl, ?_⟩
  show (if ((bases.drop skip).take exps.length).length = 0 then 0 else _)
      = only_cpu_multiexp_trunc bases exps skip
  by_cases h : ((bases.drop skip).take exps.length).length = 0
  · rw [if_pos h]
    have hnil : (bases.drop skip).take exps.length = [] :=
      List.length_eq_zero.mp h
    simp [only_cpu_multiexp_trunc, hnil, chunksOf_nil]
  · rw [if_neg h]
    exact congrArg List.sum (zip_map_fst_take
      (fun (p : List G × List ℕ) => multiexp_with_cpu p.1 p.2) _ _)

/-- Witness for C10 amended at a concrete input (n = 5 and n = 99 agree). -/
theorem c10_amended_witness :
    only_cpu_multiexp ([2, 3, 4] : List ℤ) [1, 1] 1 5
        = only_cpu_multiexp ([2, 3, 4] : List ℤ) [1, 1] 1 99
      ∧ only_cpu_multiexp ([2, 3, 4] : List ℤ) [1, 1] 1 5
          = only_cpu_multiexp_trunc ([2, 3, 4] : List ℤ) [1, 1] 1 :=
  c10_amended [2, 3, 4] [1, 1] 1 5 99

/-! ## Claim C3 -/

theorem assemblyLoop_ok (m : ℕ) :
    (assemblyLoop false m).2 = .ok (List.replicate m ()) := by
  induction m with
  | zero => rfl
  | succ k ih => simp [assemblyLoop, ih, List.replicate_succ, Except.map]

theorem assemblyLoop_error_iff (dz : Bool) (m : ℕ) :
    ((assemblyLoop dz (m + 1)).2 = .error .unexpectedIdentity) ↔ dz = true := by
  cases dz
  · simp [assemblyLoop, assemblyLoop_ok, Except.map]
  · simp [assemblyLoop]

theorem assembledCount_eq (k : ℕ) : assembledCount (k + 2) = min 1 k + 1 := by
  simp only [assembledCount, assembledProofs, h_s_collected, l_s_collected,
    recvIterOnce, List.length_map, List.length_zip, List.length_append,
    List.length_take, List.length_drop, List.length_replicate]
  omega

theorem noGpu_cons_fft (tr : List PipeEvent) :
    noGpuBeforeDeltaCheck (.fft :: tr) = false := rfl

/-- C3 as stated is false on the code: for a two-circuit batch with
`delta_g1` the identity, proof generation does fail with
`UnexpectedIdentity`, but the failure does *not* occur before the GPU
work — the delta check sits in the assembly stage (prover.rs line 881),
after all FFTs and MSMs have run. -/
theorem c3_counterexample :
    ¬ ((pipelineRun 2 true false).2 = .error .unexpectedIdentity
        ∧ noGpuBeforeDeltaCheck (pipelineRun 2 true false).1 = true) := by
  intro h
  exact absurd h.2 (by decide)

/-- C3 amended: for every batch of at least two circuits, the pipeline
fails with `UnexpectedIdentity` exactly when `delta_g1` or `delta_g2` is
the identity, but the check happens only at final assembly: FFT and GPU
multiexp work precedes the first delta check in the stage trace (so GPU
work is launched before the failure).  When both deltas are non-identity no
`UnexpectedIdentity` error is produced. -/
theorem c3_amended (k : ℕ) (dz1 dz2 : Bool) :
    ((pipelineRun (k + 2) dz1 dz2).2 = .error .unexpectedIdentity
        ↔ (dz1 || dz2) = true)
      ∧ noGpuBeforeDeltaCheck (pipelineRun (k + 2) dz1 dz2).1 = false := by
  constructor
  · have h1 : (pipelineRun (k + 2) dz1 dz2).2
        = (assemblyLoop (dz1 || dz2) (assembledCount (k + 2))).2 := rfl
    rw [h1, assembledCount_eq]
    exact assemblyLoop_error_iff _ _
  · simp only [pipelineRun]
    rw [show 7 * (k + 2) = (7 * k + 13) + 1 from by ring,
      List.replicate_succ, List.cons_append]
    exact noGpu_cons_fft _

/-! ## Claim C6 -/

/-- C6: the CPU utilization read from the environment always lies in
`[0, 1]` (unset and unparsable values yield `0`, parsed values are
clamped), and in `MultiexpKernel::multiexp` the CPU share is the length
`floor(n * u)` prefix of `bases[skip..skip+n]` / `exps[..n]`, the GPU share
the remaining `n - cpu_n` elements, and the per-device chunk size is the
ceiling of `(n - cpu_n) / num_devices` (characterized by its Galois
connection `gpu_n ≤ num_devices * m ↔ chunk_size ≤ m`). -/
theorem c6_cpu_utilization_and_split {B S : Type*} (envVar : Option (Option ℚ))
    (q : ℚ) (bases : List B) (exps : List S) (skip n numDevices : ℕ)
    (hrange : skip + n ≤ bases.length) (hexps : n ≤ exps.length) :
    (0 ≤ get_cpu_utilization envVar ∧ get_cpu_utilization envVar ≤ 1)
      ∧ get_cpu_utilization none = 0
      ∧ get_cpu_utilization (some none) = 0
      ∧ get_cpu_utilization (some (some q)) = min (max q 0) 1
      ∧ (let u := get_cpu_utilization envVar
         let s := multiexpSplit bases exps skip n u numDevices
         let cpuN := (⌊(n : ℚ) * u⌋).toNat
         s.cpuBases = ((bases.drop skip).take n).take cpuN
           ∧ s.gpuBases = ((bases.drop skip).take n).drop cpuN
           ∧ s.cpuExps = (exps.take n).take cpuN
           ∧ s.gpuExps = (exps.take n).drop cpuN
           ∧ s.cpuBases.length = cpuN
           ∧ s.gpuBases.length = n - cpuN
           ∧ s.cpuExps.length = cpuN
           ∧ s.gpuExps.length = n - cpuN
           ∧ s.chunkSize = f64_ceil_div (n - cpuN) numDevices
           ∧ (∀ m : ℕ, 0 < numDevices →
              (n - cpuN ≤ numDevices * m ↔ s.chunkSize ≤ m))) := by
  have hu0 : 0 ≤ get_cpu_utilization envVar := by
    refine le_min ?_ ?_
    · exact le_max_right _ 0
    · exact zero_le_one
  have hu1 : get_cpu_utilization envVar ≤ 1 := min_le_right _ 1
  have hcpuN : ((⌊(n : ℚ) * get_cpu_utilization envVar⌋).toNat) ≤ n := by
    have h1 : (n : ℚ) * get_cpu_utilization envVar ≤ (n : ℚ) := by
      calc (n : ℚ) * get_cpu_utilization envVar
          ≤ (n : ℚ) * 1 := by
            exact mul_le_mul_of_nonneg_left hu1 (by positivity)
        _ = (n : ℚ) := mul_one _
    have h2 : ⌊(n : ℚ) * get_cpu_utilization envVar⌋ ≤ ⌊(n : ℚ)⌋ :=
      Int.floor_le_floor h1
    have h3 : ⌊(n : ℚ)⌋ = (n : ℤ) := Int.floor_natCast n
    omega
  refine ⟨⟨hu0, hu1⟩, ?_, ?_, rfl,
    rfl, rfl, rfl, rfl, ?_, ?_, ?_, ?_, rfl, ?_⟩
  · show min (max 0 0) 1 = (0 : ℚ)
    norm_num
  · show min (max 0 0) 1 = (0 : ℚ)
    norm_num
  · simp only [multiexpSplit, List.length_take, List.length_drop]
    omega
  · simp only [multiexpSplit, List.length_drop, List.length_take]
    omega
  · simp only [multiexpSplit, List.length_take]
    omega
  · simp only [multiexpSplit, List.length_drop, List.length_take]
    omega
  · intro m hd
    show n - _ ≤ numDevices * m ↔ f64_ceil_div (n - _) numDevices ≤ m
    rw [f64_ceil_div, Nat.div_le_iff_le_mul_add_pred hd]
    generalize numDevices * m = t
    omega

/-- Witness for C6 at a parsed utilization of `7/10`, ten elements and
three devices. -/
theorem c6_witness :
    (0 ≤ get_cpu_utilization (some (some (7 / 10)))
        ∧ get_cpu_utilization (some (some (7 / 10))) ≤ 1)
      ∧ get_cpu_utilization none = 0
      ∧ get_cpu_utilization (some none) = 0
      ∧ get_cpu_utilization (some (some (7 / 10))) = min (max (7 / 10) 0) 1
      ∧ (let u := get_cpu_utilization (some (some (7 / 10)))
         let s := multiexpSplit (List.range 10) (List.range 10) 0 10 u 3
         let cpuN := (⌊(10 : ℚ) * u⌋).toNat
         s.cpuBases = (((List.range 10).drop 0).take 10).take cpuN
           ∧ s.gpuBases = (((List.range 10).drop 0).take 10).drop cpuN
           ∧ s.cpuExps = ((List.range 10).take 10).take cpuN
           ∧ s.gpuExps = ((List.range 10).take 10).drop cpuN
           ∧ s.cpuBases.length = cpuN
           ∧ s.gpuBases.length = 10 - cpuN
           ∧ s.cpuExps.length = cpuN
           ∧ s.gpuExps.length = 10 - cpuN
           ∧ s.chunkSize = f64_ceil_div (10 - cpuN) 3
           ∧ (∀ m : ℕ, 0 < 3 →
              (10 - cpuN ≤ 3 * m ↔ s.chunkSize ≤ m))) :=
  c6_cpu_utilization_and_split (some (some (7 / 10))) (7 / 10)
    (List.range 10) (List.range 10) 0 10 3 (by decide) (by decide)

/-! ## Claim C7 -/

/-- C7 as stated is false on the code: with three devices and nine
elements the GPU share splits into three per-device chunks, but the zip
with the two-element `gpu_core_ids` vector dispatches only the first two —
the third device chunk is never processed. -/
theorem c7_counterexample :
    ((gpuBranchRun (fun _ _ _ _ => (0 : ℤ)) 100 3
        (List.range 9) (List.range 9) 3).1).length = 2
      ∧ (chunksOf 3 (List.range 9)).length = 3 := by
  decide

/-- C7 amended: the window size passed to the single-device kernel is 11
iff the projective element size is at most 144 bytes and 8 otherwise, and
every *dispatched* device chunk — the zips truncate dispatch to the first
`min (min #baseChunks #expChunks) (min numDevices 2)` chunks — is processed
in `33_554_466`-element sub-tiles (all full except possibly the last, and
together re-composing the chunk), whose per-tile kernel results are summed
into the per-device accumulator, the per-device results being summed in
turn. -/
theorem c7_amended {B S G : Type*} [AddCommMonoid G]
    (kern : ℕ → List B → List S → ℕ → G) (projSize numDevices : ℕ)
    (gpuBases : List B) (gpuExps : List S) (chunkSize : ℕ) :
    ((projSize ≤ 144 → jack_windows_size projSize = 11)
        ∧ (144 < projSize → jack_windows_size projSize = 8))
      ∧ (gpuBranchRun kern projSize numDevices gpuBases gpuExps chunkSize).1.length
          = min (min (chunksOf chunkSize gpuBases).length
                (chunksOf chunkSize gpuExps).length) (min numDevices 2)
      ∧ (gpuBranchRun kern projSize numDevices gpuBases gpuExps chunkSize).2
          = (((gpuBranchRun kern projSize numDevices gpuBases gpuExps chunkSize).1).map
              (fun x => deviceChunkRun (kern x.1) projSize x.2.1 x.2.2)).sum
      ∧ (∀ (f : List B → List S → ℕ → G) (bs : List B) (es : List S),
          deviceChunkRun f projSize bs es
            = (((chunksOf jack_chunk_3080 bs).zip (chunksOf jack_chunk_3080 es)).map
                (fun t => f t.1 t.2 (jack_windows_size projSize))).sum)
      ∧ (∀ bs : List B,
          (∀ c ∈ (chunksOf jack_chunk_3080 bs).dropLast,
              c.length = jack_chunk_3080)
            ∧ (∀ c ∈ chunksOf jack_chunk_3080 bs,
              c.length ≤ jack_chunk_3080 ∧ c ≠ [])
            ∧ (chunksOf jack_chunk_3080 bs).flatten = bs) := by
  have hjack : jack_chunk_3080 ≠ 0 := by decide
  refine ⟨⟨?_, ?_⟩, ?_, rfl, ?_, ?_⟩
  · intro h
    rw [jack_windows_size, if_neg (by omega)]
  · intro h
    rw [jack_windows_size, if_pos h]
  · simp only [gpuBranchRun, List.length_map, List.length_zip,
      List.length_range, List.length_cons, List.length_nil]
    omega
  · intro f bs es
    rw [deviceChunkRun, foldl_add_eq_sum, zero_add]
  · intro bs
    exact ⟨chunksOf_dropLast_length hjack bs, chunksOf_mem_length hjack bs,
      chunksOf_flatten hjack bs⟩

/-- Witness for C7 amended: concrete window sizes for a 96-byte and a
192-byte projective element. -/
theorem c7_amended_witness :
    jack_windows_size 96 = 11 ∧ jack_windows_size 192 = 8 :=
  ⟨(c7_amended (fun _ _ _ _ => (0 : ℤ)) 96 2 ([] : List ℕ)
      ([] : List ℕ) 1).1.1 (by decide),
   (c7_amended (fun _ _ _ _ => (0 : ℤ)) 192 2 ([] : List ℕ)
      ([] : List ℕ) 1).1.2 (by decide)⟩

/-! ## Claim C5 -/

/-- C5: `SingleMultiexpKernel::multiexp` returns `GPUTaken` iff
`PriorityLock::should_break(self.priority)` holds at entry; in that case
the trace is just the entry check — no buffer is allocated and no kernel
launched; and in every execution the check happens exactly once, as the
first event. -/
theorem c5_priority_check {G : Type*} [AddCommMonoid G] (pb : Bool)
    (dev : DeviceOracle G) (curveOk : Bool) (n coreCount windowSize expBits : ℕ) :
    ((singleMultiexpRun pb dev curveOk n coreCount windowSize expBits).2
        = .error .gpuTaken ↔ pb = true)
      ∧ (pb = true →
          (singleMultiexpRun pb dev curveOk n coreCount windowSize expBits).1
            = [.checkBreak])
      ∧ (singleMultiexpRun pb dev curveOk n coreCount windowSize expBits).1.head?
          = some .checkBreak
      ∧ (singleMultiexpRun pb dev curveOk n coreCount windowSize
          expBits).1.count .checkBreak = 1 := by
  rcases dev with ⟨cb, wb, ce, we, cbk, cr, la, ro⟩
  cases pb
  · cases cb <;> cases wb <;> cases ce <;> cases we <;> cases cbk <;> cases cr <;>
      cases la <;> cases curveOk <;>
      simp [singleMultiexpRun, List.count_cons, List.count_nil]
  · simp [singleMultiexpRun, List.count_cons, List.count_nil]

/-- Witness for C5: a preempted call (priority check fires) stops with the
bare entry-check trace. -/
theorem c5_witness :
    (singleMultiexpRun true
        (⟨none, none, none, none, none, none, none, ([] : List ℤ)⟩ :
          DeviceOracle ℤ) true 5 8 11 256).1 = [.checkBreak] :=
  (c5_priority_check true _ true 5 8 11 256).2.1 rfl

/-! ## Claim C8 -/

theorem applyOps_fields {F : Type*} (ops : List (AllocOp F)) :
    ∀ p : ProvingAssignment F,
      applyOps p ops =
        { a_aux_density := ⟨p.a_aux_density.bv
            ++ List.replicate (auxOf ops).length false⟩
          b_input_density := ⟨p.b_input_density.bv
            ++ List.replicate (inputsOf ops).length false⟩
          b_aux_density := ⟨p.b_aux_density.bv
            ++ List.replicate (auxOf ops).length false⟩
          a := p.a
          b := p.b
          c := p.c
          input_assignment := p.input_assignment ++ inputsOf ops
          aux_assignment := p.aux_assignment ++ auxOf ops } := by
  induction ops with
  | nil =>
    intro p
    simp [applyOps, inputsOf, auxOf]
  | cons o t ih =>
    intro p
    cases o with
    | aux v =>
      simp only [applyOps, List.foldl_cons] at ih ⊢
      rw [ih]
      simp [ProvingAssignment.alloc, DensityTracker.add_element, applyOp,
        inputsOf, auxOf, List.filterMap_cons, List.replicate_succ,
        List.append_assoc]
    | inp v =>
      simp only [applyOps, List.foldl_cons] at ih ⊢
      rw [ih]
      simp [ProvingAssignment.alloc_input, DensityTracker.add_element, applyOp,
        inputsOf, auxOf, List.filterMap_cons, List.replicate_succ,
        List.append_assoc]

theorem extend_applyOps {F : Type*} (one : F) (g1 g2 : List (AllocOp F)) :
    (applyOps (startAssignment one) g1).extend (applyOps (startAssignment one) g2)
      = applyOps (startAssignment one) (g1 ++ g2) := by
  have haux : auxOf (g1 ++ g2) = auxOf g1 ++ auxOf g2 := by
    simp [auxOf, List.filterMap_append]
  have hinp : inputsOf (g1 ++ g2) = inputsOf g1 ++ inputsOf g2 := by
    simp [inputsOf, List.filterMap_append]
  rw [applyOps_fields g1, applyOps_fields g2, applyOps_fields (g1 ++ g2),
    haux, hinp]
  simp only [ProvingAssignment.extend, DensityTracker.extend, startAssignment,
    ProvingAssignment.alloc_input, ProvingAssignment.new,
    DensityTracker.add_element, DensityTracker.new]
  simp only [Bool.false_eq_true, if_false, if_true, List.nil_append,
    List.singleton_append, List.drop_succ_cons, List.drop_zero, List.append_nil,
    List.length_append, List.replicate_add, List.append_assoc,
    List.cons_append]

theorem foldl_extend_applyOps {F : Type*} (one : F) :
    ∀ (gs : List (List (AllocOp F))) (pre : List (AllocOp F)),
      (gs.map (fun g => applyOps (startAssignment one) g)).foldl
          ProvingAssignment.extend (applyOps (startAssignment one) pre)
        = applyOps (startAssignment one) (pre ++ gs.flatten) := by
  intro gs
  induction gs with
  | nil => intro pre; simp
  | cons g t ih =>
    intro pre
    simp only [List.map_cons, List.foldl_cons, List.flatten_cons]
    rw [extend_applyOps, ih (pre ++ g), List.append_assoc]

/-- C8: for every stream of `alloc`/`alloc_input` calls split into groups,
building each group on a fresh assignment (with the constant-one input)
and folding the partial assignments into one via `ProvingAssignment::extend`
yields an assignment equal — under the derived `PartialEq`, i.e. all eight
fields — to the assignment built directly from the concatenated stream; and
`extend` appends `a`, `b`, `c` and `aux_assignment` while skipping the
first element of the extendee `input_assignment`. -/
theorem c8_extend_equals_direct {F : Type*} (one : F)
    (groups : List (List (AllocOp F))) :
    ((groups.map (fun g => applyOps (startAssignment one) g)).foldl
        ProvingAssignment.extend (startAssignment one)
      = applyOps (startAssignment one) groups.flatten)
    ∧ (∀ p q : ProvingAssignment F,
        (p.extend q).a = p.a ++ q.a
        ∧ (p.extend q).b = p.b ++ q.b
        ∧ (p.extend q).c = p.c ++ q.c
        ∧ (p.extend q).aux_assignment = p.aux_assignment ++ q.aux_assignment
        ∧ (p.extend q).input_assignment
            = p.input_assignment ++ q.input_assignment.drop 1) := by
  constructor
  · have h := foldl_extend_applyOps one groups []
    simpa using h
  · intro p q
    exact ⟨rfl, rfl, rfl, rfl, rfl⟩

/-! ## Claim C4 -/

theorem doubleTimes_eq {G : Type*} [AddCommMonoid G] :
    ∀ (w : ℕ) (acc : G), doubleTimes acc w = 2 ^ w • acc := by
  intro w
  induction w with
  | zero => intro acc; simp [doubleTimes]
  | succ k ih =>
    intro acc
    show doubleTimes (acc + acc) k = 2 ^ (k + 1) • acc
    rw [ih (acc + acc), ← two_smul ℕ acc, smul_smul, pow_succ]

theorem foldl_add_getD {G : Type*} [AddCommMonoid G] (results : List G)
    (numWindows numGroups i : ℕ) (acc : G) :
    (List.range numGroups).foldl
        (fun a g => a + results.getD (g * numWindows + i) 0) acc
      = acc + windowGroupSum results numWindows numGroups i := by
  rw [windowGroupSum]
  exact foldl_add_eq_sum _ _ _

theorem hostReduceLoop_eq {G : Type*} [AddCommMonoid G] (results : List G)
    (numWindows numGroups windowSize expBits : ℕ) :
    ∀ (rem i bits : ℕ) (acc : G),
      hostReduceLoop results numWindows numGroups windowSize expBits
          rem i bits acc
        = 2 ^ (tailBits windowSize expBits rem bits) • acc
          + partialSpec results numWindows numGroups windowSize expBits
              rem i bits := by
  intro rem
  induction rem with
  | zero =>
    intro i bits acc
    simp [hostReduceLoop, tailBits, partialSpec]
  | succ r ih =>
    intro i bits acc
    simp only [hostReduceLoop, tailBits, partialSpec]
    rw [ih, foldl_add_getD, doubleTimes_eq, smul_add, smul_smul, ← pow_add,
      Nat.add_comm (tailBits windowSize expBits r
        (bits + min windowSize (expBits - bits)))
        (min windowSize (expBits - bits)),
      add_assoc]

theorem tailBits_eq (ws eb : ℕ) :
    ∀ rem bits, tailBits ws eb rem bits = min (rem * ws) (eb - bits) := by
  intro rem
  induction rem with
  | zero => intro bits; simp [tailBits]
  | succ r ih =>
    intro bits
    simp only [tailBits]
    rw [ih]
    rw [show (r + 1) * ws = r * ws + ws from by ring]
    generalize r * ws = t
    omega

theorem partialSpec_eq_sum {G : Type*} [AddCommMonoid G] (results : List G)
    (nw ng ws eb : ℕ) :
    ∀ (rem i bits : ℕ), bits = min (i * ws) eb → eb ≤ (i + rem) * ws →
      partialSpec results nw ng ws eb rem i bits
        = ∑ t ∈ Finset.range rem,
            2 ^ (eb - min ((i + t + 1) * ws) eb) •
              windowGroupSum results nw ng (i + t) := by
  intro rem
  induction rem with
  | zero =>
    intro i bits _ _
    simp [partialSpec]
  | succ r ih =>
    intro i bits hbits hcov
    have hbw : bits + min ws (eb - bits) = min ((i + 1) * ws) eb := by
      subst hbits
      rw [show (i + 1) * ws = i * ws + ws from by ring]
      generalize i * ws = t
      omega
    have hcov' : eb ≤ (i + 1 + r) * ws := by
      rw [show (i + 1 + r) * ws = (i + (r + 1)) * ws from by ring]
      exact hcov
    have htail : tailBits ws eb r (bits + min ws (eb - bits))
        = eb - min ((i + 1) * ws) eb := by
      rw [tailBits_eq, hbw]
      rw [show (i + 1 + r) * ws = (i + 1) * ws + r * ws from by ring] at hcov'
      generalize hA : (i + 1) * ws = A at *
      generalize hB : r * ws = B at *
      omega
    simp only [partialSpec]
    rw [htail, ih (i + 1) (bits + min ws (eb - bits)) hbw hcov',
      Finset.sum_range_succ']
    have hshift : ∑ t ∈ Finset.range r,
        2 ^ (eb - min ((i + 1 + t + 1) * ws) eb) •
          windowGroupSum results nw ng (i + 1 + t)
        = ∑ t ∈ Finset.range r,
        2 ^ (eb - min ((i + (t + 1) + 1) * ws) eb) •
          windowGroupSum results nw ng (i + (t + 1)) := by
      apply Finset.sum_congr rfl
      intro t _
      rw [show i + 1 + t + 1 = i + (t + 1) + 1 from by ring,
        show i + 1 + t = i + (t + 1) from by ring]
    rw [hshift]
    simp only [Nat.add_zero]
    exact add_comm _ _

theorem le_f64_ceil_div_mul (eb ws : ℕ) (hws : 0 < ws) :
    eb ≤ f64_ceil_div eb ws * ws := by
  rw [f64_ceil_div]
  have hdm := Nat.div_add_mod (eb + ws - 1) ws
  have hm : (eb + ws - 1) % ws < ws := Nat.mod_lt _ hws
  rw [Nat.mul_comm]
  generalize h : ws * ((eb + ws - 1) / ws) = t at hdm ⊢
  omega

theorem digitSum_mod {ws eb : ℕ} (e : ℕ) :
    ∀ (rem bits : ℕ),
      digitSum ws eb e rem bits
        = digitSum ws eb (e % 2 ^ (eb - bits)) rem bits := by
  intro rem
  induction rem generalizing e with
  | zero => intro bits; rfl
  | succ r ih =>
    intro bits
    simp only [digitSum]
    have hw : eb - bits - min ws (eb - bits) + min ws (eb - bits)
        = eb - bits := by omega
    congr 1
    · -- the two window digits agree
      rw [Nat.div_mod_eq_mod_mul_div, Nat.div_mod_eq_mod_mul_div,
        ← pow_add, hw,
        Nat.mod_mod_of_dvd e (dvd_refl (2 ^ (eb - bits)))]
    · -- the two digit-sum tails agree
      rw [ih e (bits + min ws (eb - bits)),
        ih (e % 2 ^ (eb - bits)) (bits + min ws (eb - bits))]
      congr 1
      have hsub : eb - (bits + min ws (eb - bits))
          = eb - bits - min ws (eb - bits) := by omega
      rw [hsub,
        Nat.mod_mod_of_dvd e (pow_dvd_pow 2 (by omega :
          eb - bits - min ws (eb - bits) ≤ eb - bits))]

theorem digitSum_eq (ws eb : ℕ) (hws : 0 < ws) :
    ∀ (rem bits e : ℕ), eb - bits ≤ rem * ws → e < 2 ^ (eb - bits) →
      digitSum ws eb e rem bits = e := by
  intro rem
  induction rem with
  | zero =>
    intro bits e hcov he
    have hz : eb - bits = 0 := by omega
    rw [hz, pow_zero] at he
    have he0 : e = 0 := by omega
    rw [he0]
    rfl
  | succ r ih =>
    intro bits e hcov he
    simp only [digitSum]
    have hdigit : e / 2 ^ (eb - bits - min ws (eb - bits))
        % 2 ^ (min ws (eb - bits))
        = e / 2 ^ (eb - bits - min ws (eb - bits)) := by
      apply Nat.mod_eq_of_lt
      apply Nat.div_lt_of_lt_mul
      calc e < 2 ^ (eb - bits) := he
        _ = 2 ^ (eb - bits - min ws (eb - bits))
            * 2 ^ (min ws (eb - bits)) := by
          rw [← pow_add]
          congr 1
          omega
    have htailmod : digitSum ws eb e r (bits + min ws (eb - bits))
        = e % 2 ^ (eb - bits - min ws (eb - bits)) := by
      rw [digitSum_mod]
      have hsub : eb - (bits + min ws (eb - bits))
          = eb - bits - min ws (eb - bits) := by omega
      rw [hsub]
      apply ih
      · rw [show (r + 1) * ws = r * ws + ws from by ring] at hcov
        generalize r * ws = t at hcov ⊢
        omega
      · rw [hsub]
        exact Nat.mod_lt _ (Nat.two_pow_pos _)
    rw [hdigit, htailmod, Nat.div_add_mod]

theorem digitSum_eq_sum (ws eb e : ℕ) :
    ∀ (rem i bits : ℕ), bits = min (i * ws) eb →
      digitSum ws eb e rem bits
        = ∑ t ∈ Finset.range rem,
            2 ^ (eb - min ((i + t + 1) * ws) eb) * windowDigit ws eb e (i + t) := by
  intro rem
  induction rem with
  | zero =>
    intro i bits _
    simp [digitSum]
  | succ r ih =>
    intro i bits hbits
    have hbw : bits + min ws (eb - bits) = min ((i + 1) * ws) eb := by
      subst hbits
      rw [show (i + 1) * ws = i * ws + ws from by ring]
      generalize i * ws = t
      omega
    have hfirst : 2 ^ (eb - bits - min ws (eb - bits))
          * (e / 2 ^ (eb - bits - min ws (eb - bits)) % 2 ^ (min ws (eb - bits)))
        = 2 ^ (eb - min ((i + 1) * ws) eb) * windowDigit ws eb e i := by
      rw [windowDigit, ← hbits]
      have hexp : eb - bits - min ws (eb - bits) = eb - min ((i + 1) * ws) eb := by
        rw [← hbw]
        omega
      rw [hexp]
    simp only [digitSum]
    rw [hfirst, ih (i + 1) (bits + min ws (eb - bits)) hbw,
      Finset.sum_range_succ']
    have hshift : ∑ t ∈ Finset.range r,
        2 ^ (eb - min ((i + 1 + t + 1) * ws) eb) * windowDigit ws eb e (i + 1 + t)
        = ∑ t ∈ Finset.range r,
        2 ^ (eb - min ((i + (t + 1) + 1) * ws) eb)
          * windowDigit ws eb e (i + (t + 1)) := by
      apply Finset.sum_congr rfl
      intro t _
      rw [show i + 1 + t + 1 = i + (t + 1) + 1 from by ring,
        show i + 1 + t = i + (t + 1) from by ring]
    rw [hshift]
    simp only [Nat.add_zero]
    exact add_comm _ _

theorem digit_reconstruction (ws eb : ℕ) (hws : 0 < ws) (nw : ℕ)
    (hcov : eb ≤ nw * ws) (e : ℕ) (he : e < 2 ^ eb) :
    ∑ t ∈ Finset.range nw,
        2 ^ (eb - min ((t + 1) * ws) eb) * windowDigit ws eb e t = e := by
  have h3 : ∑ t ∈ Finset.range nw,
      2 ^ (eb - min ((t + 1) * ws) eb) * windowDigit ws eb e t
      = ∑ t ∈ Finset.range nw,
      2 ^ (eb - min ((0 + t + 1) * ws) eb) * windowDigit ws eb e (0 + t) := by
    apply Finset.sum_congr rfl
    intro t _
    norm_num
  rw [h3, ← digitSum_eq_sum ws eb e nw 0 0 (by simp)]
  exact digitSum_eq ws eb hws nw 0 e (by simpa using hcov) (by simpa using he)

theorem sum_smul_map_sum {G : Type*} [AddCommMonoid G] (β : ℕ → ℕ)
    (d : ℕ → ℕ → ℕ) (nw : ℕ) :
    ∀ (l : List (G × ℕ)),
      ∑ i ∈ Finset.range nw, 2 ^ β i • (l.map (fun p => d p.2 i • p.1)).sum
        = (l.map (fun p =>
            (∑ i ∈ Finset.range nw, 2 ^ β i * d p.2 i) • p.1)).sum := by
  intro l
  induction l with
  | nil => simp
  | cons x t ih =>
    simp only [List.map_cons, List.sum_cons, smul_add, Finset.sum_add_distrib]
    rw [ih]
    congr 1
    rw [Finset.sum_smul]
    apply Finset.sum_congr rfl
    intro i _
    rw [mul_smul]

/-- C4: the host reduction loop of `SingleMultiexpKernel::multiexp` returns
the sum over all windows `i` of `2 ^ (number of exponent bits strictly
below window i)` times the sum over all groups `g` of
`results[g * num_windows + i]` (first conjunct); and when the per-window
partials are correct — each window group sum is the MSM of the bases
against the corresponding exponent window digits — the result equals the
full multi-scalar multiplication (second conjunct). -/
theorem c4_host_reduction {G : Type*} [AddCommMonoid G] (results : List G)
    (bases : List G) (exps : List ℕ)
    (numWindows numGroups windowSize expBits : ℕ)
    (hnw : numWindows = f64_ceil_div expBits windowSize)
    (hws : 0 < windowSize)
    (hpart : ∀ i < numWindows,
      windowGroupSum results numWindows numGroups i
        = ((bases.zip exps).map
            (fun p => windowDigit windowSize expBits p.2 i • p.1)).sum)
    (hexps : ∀ e ∈ exps, e < 2 ^ expBits) :
    hostReduce results numWindows numGroups windowSize expBits
        = ∑ i ∈ Finset.range numWindows,
            2 ^ (expBits - min ((i + 1) * windowSize) expBits) •
              windowGroupSum results numWindows numGroups i
      ∧ hostReduce results numWindows numGroups windowSize expBits
          = msmNat bases exps := by
  have hcov : expBits ≤ (0 + numWindows) * windowSize := by
    rw [Nat.zero_add, hnw]
    exact le_f64_ceil_div_mul _ _ hws
  have h1 : hostReduce results numWindows numGroups windowSize expBits
      = ∑ i ∈ Finset.range numWindows,
          2 ^ (expBits - min ((i + 1) * windowSize) expBits) •
            windowGroupSum results numWindows numGroups i := by
    rw [hostReduce, hostReduceLoop_eq, smul_zero, zero_add,
      partialSpec_eq_sum results numWindows numGroups windowSize expBits
        numWindows 0 0 (by simp) hcov]
    apply Finset.sum_congr rfl
    intro t _
    norm_num
  refine ⟨h1, ?_⟩
  rw [h1]
  have h2 : ∑ i ∈ Finset.range numWindows,
      2 ^ (expBits - min ((i + 1) * windowSize) expBits) •
        windowGroupSum results numWindows numGroups i
      = ∑ i ∈ Finset.range numWindows,
        2 ^ (expBits - min ((i + 1) * windowSize) expBits) •
          ((bases.zip exps).map
            (fun p => windowDigit windowSize expBits p.2 i • p.1)).sum := by
    apply Finset.sum_congr rfl
    intro i hi
    rw [hpart i (Finset.mem_range.mp hi)]
  rw [h2, sum_smul_map_sum
    (fun i => expBits - min ((i + 1) * windowSize) expBits)
    (fun e i => windowDigit windowSize expBits e i) numWindows]
  rw [msmNat]
  refine congrArg List.sum (List.map_congr_left ?_)
  intro p hp
  have hpe : p.2 ∈ exps := (List.of_mem_zip hp).2
  rw [digit_reconstruction windowSize expBits hws numWindows
    (by simpa using hcov) p.2 (hexps p.2 hpe)]

/-- Witness for C4: window size 2, 5 exponent bits (three windows of widths
2, 2, 1), one group, device partials `[2, 2, 1]` matching the single pair
`(base, exponent) = (1, 21)`; the reduction yields `21 = 21 * 1`. -/
theorem c4_witness :
    hostReduce ([2, 2, 1] : List ℤ) 3 1 2 5
        = ∑ i ∈ Finset.range 3,
            2 ^ (5 - min ((i + 1) * 2) 5) •
              windowGroupSum ([2, 2, 1] : List ℤ) 3 1 i
      ∧ hostReduce ([2, 2, 1] : List ℤ) 3 1 2 5
          = msmNat ([1] : List ℤ) [21] :=
  c4_host_reduction [2, 2, 1] [1] [21] 3 1 2 5 rfl (by decide)
    (by decide) (by decide)

end BellpersonOpt
